import Mathlib

/-!
Verification of the rxcpp core (src/Rx/CPP/src/cpprx/rx-operators.hpp)
against its natural-language specification.

Events delivered on the observer protocol are modelled by `Ev`:
`next x`, `completed`, `error e` (an `std::exception_ptr` is modelled by an
opaque `Nat` identifier).  Each stateful operator is embedded as an explicit
state record plus step functions, one per observer callback, translated
directly from the C++ handlers; a per-subscription run is the left fold of
the step functions over the upstream delivery sequence, collecting the
events the operator delivers downstream.
-/

/-- An observer-protocol event: `OnNext x`, `OnCompleted`, or `OnError e`
(the `std::exception_ptr` payload is an opaque `Nat`). -/
inductive Ev (α : Type) where
  | next (x : α) : Ev α
  | completed : Ev α
  | error (e : Nat) : Ev α
deriving DecidableEq

/-- The values carried by the `next` events of a delivery sequence. -/
def evVals {α : Type} (trace : List (Ev α)) : List α :=
  trace.filterMap (fun e => match e with | Ev.next x => some x | _ => none)

/-- Whether an event is `completed`. -/
def isCompletedEv {α : Type} : Ev α → Bool
  | Ev.completed => true
  | _ => false

/-- Whether an event is an `error`. -/
def isErrorEv {α : Type} : Ev α → Bool
  | Ev.error _ => true
  | _ => false

/-- Number of `completed` events in a delivery sequence. -/
def countCompleted {α : Type} (trace : List (Ev α)) : Nat :=
  trace.countP (fun e => isCompletedEv e)

/-!
### Take  (rx-operators.hpp, `Take`, lines 1439-1488)

Per-subscription state: a pair of signed atomic counters
`remaining = (inbound, outbound)`, both initialised to `n`, plus the
`ComposableDisposable cd`; `disposed` records that `cd.Dispose()` ran, which
tears down the upstream subscription, so later upstream events are not
delivered to the handlers.  Signed `Integral` counters are modelled by `Int`.
-/

/-- State of one `Take` subscription: the two counters of `remaining`
and whether `cd` has been disposed. -/
structure TakeState where
  inbound : Int
  outbound : Int
  disposed : Bool
deriving DecidableEq

/-- The `Take` on-next handler: decrement `inbound`; if the result is
still nonnegative, forward the element, then (`RXCPP_UNWIND_AUTO`, which
runs at scope exit, after the `OnNext`) decrement `outbound` and emit
`completed` plus `cd.Dispose()` when it reaches zero. -/
def takeOnNext (st : TakeState) (x : Nat) : List (Ev Nat) × TakeState :=
  if st.disposed then ([], st) else
  let localV := st.inbound - 1
  if localV ≥ 0 then
    let outbound' := st.outbound - 1
    if outbound' = 0 then
      ([Ev.next x, Ev.completed], ⟨localV, outbound', true⟩)
    else
      ([Ev.next x], ⟨localV, outbound', st.disposed⟩)
  else
    ([], ⟨localV, st.outbound, st.disposed⟩)

/-- The `Take` on-completed handler: forward `completed` only when
`outbound == 0 && inbound <= 0`. -/
def takeOnCompleted (st : TakeState) : List (Ev Nat) × TakeState :=
  if st.disposed then ([], st) else
  if st.outbound = 0 ∧ st.inbound ≤ 0 then
    ([Ev.completed], ⟨st.inbound, st.outbound, true⟩)
  else
    ([], st)

/-- The `Take` on-error handler: forward the error and dispose. -/
def takeOnError (st : TakeState) (e : Nat) : List (Ev Nat) × TakeState :=
  if st.disposed then ([], st) else
  ([Ev.error e], ⟨st.inbound, st.outbound, true⟩)

/-- One step of a `Take` subscription on an upstream event. -/
def takeStep (st : TakeState) (e : Ev Nat) : List (Ev Nat) × TakeState :=
  match e with
  | Ev.next x => takeOnNext st x
  | Ev.completed => takeOnCompleted st
  | Ev.error err => takeOnError st err

/-- Run a `Take` subscription over an upstream delivery sequence,
collecting the downstream deliveries. -/
def takeRunFrom (st : TakeState) : List (Ev Nat) → List (Ev Nat) × TakeState
  | [] => ([], st)
  | e :: rest =>
    let p := takeStep st e
    let q := takeRunFrom p.2 rest
    (p.1 ++ q.1, q.2)

/-- A subscription to `Take(source, n)`: both counters start at `n`. -/
def takeRun (n : Int) (trace : List (Ev Nat)) : List (Ev Nat) × TakeState :=
  takeRunFrom ⟨n, n, false⟩ trace

/-!
### Scan  (rx-operators.hpp, `ScanObservable`, lines 1324-1437)

`ScanObservable<T, A>` holds `seed : util::maybe<A>`, an `Accumulator`
`f : A × T → A` and a `Seeder : T → util::maybe<A>`.  The per-subscription
sink `_` holds `accumulation : util::maybe<A>`.  The seeded overload
`Scan(source, seed, accumulator)` installs `maybe(seed)` and a seeder whose
body calls `abort()`; the seedless overload installs an empty maybe and the
identity seeder.  `seederCalled` records that the seeder branch of `OnNext`
was taken; `disposed` records `SinkBase::Dispose()` (which also disposes
the upstream subscription, so later upstream events are not delivered).
-/

/-- State of one `ScanObservable::_` sink. -/
structure ScanState (α : Type) where
  accumulation : Option α
  seederCalled : Bool
  disposed : Bool
deriving DecidableEq

/-- The `ScanObservable::_::OnNext` handler: update the accumulation
(from the previous accumulation if set, else from the seed if present,
else via the seeder) and forward it. -/
def scanOnNext {τ α : Type} (seed : Option α) (f : α → τ → α) (sdr : τ → α)
    (st : ScanState α) (t : τ) : List (Ev α) × ScanState α :=
  if st.disposed then ([], st) else
  match st.accumulation with
  | some a =>
    let a' := f a t
    ([Ev.next a'], ⟨some a', st.seederCalled, st.disposed⟩)
  | none =>
    match seed with
    | some s =>
      let a' := f s t
      ([Ev.next a'], ⟨some a', st.seederCalled, st.disposed⟩)
    | none =>
      let a' := sdr t
      ([Ev.next a'], ⟨some a', true, st.disposed⟩)

/-- The `ScanObservable::_::OnCompleted` handler: if no value ever arrived
and a seed is present, emit the seed; then complete and dispose. -/
def scanOnCompleted {α : Type} (seed : Option α) (st : ScanState α) :
    List (Ev α) × ScanState α :=
  if st.disposed then ([], st) else
  match st.accumulation, seed with
  | none, some s => ([Ev.next s, Ev.completed], ⟨st.accumulation, st.seederCalled, true⟩)
  | _, _ => ([Ev.completed], ⟨st.accumulation, st.seederCalled, true⟩)

/-- The `ScanObservable::_::OnError` handler: forward and dispose. -/
def scanOnError {α : Type} (st : ScanState α) (e : Nat) :
    List (Ev α) × ScanState α :=
  if st.disposed then ([], st) else
  ([Ev.error e], ⟨st.accumulation, st.seederCalled, true⟩)

/-- One step of a `Scan` subscription on an upstream event. -/
def scanStep {τ α : Type} (seed : Option α) (f : α → τ → α) (sdr : τ → α)
    (st : ScanState α) (e : Ev τ) : List (Ev α) × ScanState α :=
  match e with
  | Ev.next t => scanOnNext seed f sdr st t
  | Ev.completed => scanOnCompleted seed st
  | Ev.error err => scanOnError st err

/-- Run a `Scan` subscription over an upstream delivery sequence. -/
def scanRunFrom {τ α : Type} (seed : Option α) (f : α → τ → α) (sdr : τ → α)
    (st : ScanState α) : List (Ev τ) → List (Ev α) × ScanState α
  | [] => ([], st)
  | e :: rest =>
    let p := scanStep seed f sdr st e
    let q := scanRunFrom seed f sdr p.2 rest
    (p.1 ++ q.1, q.2)

/-- A fresh `Scan` subscription: the accumulation maybe starts empty. -/
def scanRun {τ α : Type} (seed : Option α) (f : α → τ → α) (sdr : τ → α)
    (trace : List (Ev τ)) : List (Ev α) × ScanState α :=
  scanRunFrom seed f sdr ⟨none, false, false⟩ trace

/-- The successive accumulations `f(s,x1), f(f(s,x1),x2), …` that a seeded
scan over `[x1..xk]` emits. -/
def scanAccums {τ α : Type} (f : α → τ → α) : α → List τ → List α
  | _, [] => []
  | a, x :: xs =>
    let a' := f a x
    a' :: scanAccums f a' xs

/-!
### AutoDetach observer  (rx-operators.hpp, `CreatedAutoDetachObserver`, lines 16-65)

The wrapper owns `observer : shared_ptr<Observer<T>>` (here: a Bool saying
whether the inner observer is still held) and a `SerialDisposable`
(`disposed` records it was disposed).  The inner observer is modelled by a
function `thr : Ev τ → Bool` saying whether its delivery of a given event
throws; each step returns the list of events actually delivered to the
inner observer.  `RXCPP_UNWIND(disposer, …)` runs `disposable.Dispose()` at
scope exit unless `disposer.dismiss()` was reached, i.e. exactly when the
inner delivery throws.
-/

/-- State of a `CreatedAutoDetachObserver`: whether the inner observer is
still held, and whether the serial disposable has been disposed. -/
structure ADState where
  hasObserver : Bool
  disposed : Bool
deriving DecidableEq

/-- `CreatedAutoDetachObserver::OnNext`: deliver to the inner observer if
held; on a throw from the inner delivery the unwind disposes the serial
(the inner observer is not cleared — only terminal events swap it out). -/
def adOnNext {τ : Type} (thr : Ev τ → Bool) (st : ADState) (x : τ) :
    List (Ev τ) × ADState :=
  if st.hasObserver then
    if thr (Ev.next x) then ([Ev.next x], ⟨st.hasObserver, true⟩)
    else ([Ev.next x], st)
  else ([], st)

/-- `CreatedAutoDetachObserver::OnCompleted`: swap the inner observer out
(clearing the member) before delivering; the unwind disposes the serial
only if the inner delivery throws — on normal return `disposer.dismiss()`
skips the disposal. -/
def adOnCompleted {τ : Type} (thr : Ev τ → Bool) (st : ADState) :
    List (Ev τ) × ADState :=
  if st.hasObserver then
    if thr Ev.completed then ([Ev.completed], ⟨false, true⟩)
    else ([Ev.completed], ⟨false, st.disposed⟩)
  else ([], st)

/-- `CreatedAutoDetachObserver::OnError`: same shape as `OnCompleted`. -/
def adOnError {τ : Type} (thr : Ev τ → Bool) (st : ADState) (e : Nat) :
    List (Ev τ) × ADState :=
  if st.hasObserver then
    if thr (Ev.error e) then ([Ev.error e], ⟨false, true⟩)
    else ([Ev.error e], ⟨false, st.disposed⟩)
  else ([], st)

/-- One call on the wrapper, driven by the event the caller passes. -/
def adStep {τ : Type} (thr : Ev τ → Bool) (st : ADState) (e : Ev τ) :
    List (Ev τ) × ADState :=
  match e with
  | Ev.next x => adOnNext thr st x
  | Ev.completed => adOnCompleted thr st
  | Ev.error err => adOnError thr st err

/-- A sequence of calls on the wrapper, collecting every event delivered
to the inner observer. -/
def adRun {τ : Type} (thr : Ev τ → Bool) (st : ADState) :
    List (Ev τ) → List (Ev τ) × ADState
  | [] => ([], st)
  | e :: rest =>
    let p := adStep thr st e
    let q := adRun thr p.2 rest
    (p.1 ++ q.1, q.2)

/-!
### Where  (rx-operators.hpp, `Where`, lines 1069-1106)

The on-next handler evaluates the predicate into a `util::maybe`; a throw
is caught and routed to `observer->OnError`, after which the handler falls
through to the empty-maybe test and simply does not forward the element.
Nothing in any handler disposes the subscription returned by
`Subscribe(source, …)`.  The predicate is modelled as
`p : τ → Except Nat Bool` (`Except.error e` = the predicate throws `e`).
A run returns the events the handlers invoke on the downstream observer
object, the list of elements on which the predicate was evaluated, and
whether the upstream subscription was disposed by the operator.
-/

/-- The `Where` on-next handler: evaluate the predicate; a throw becomes
`OnError` on the downstream observer and the element is not forwarded;
otherwise forward the element exactly when the predicate returned true. -/
def whereOnNext {τ : Type} (p : τ → Except Nat Bool) (x : τ) : List (Ev τ) :=
  match p x with
  | Except.error e => [Ev.error e]
  | Except.ok true => [Ev.next x]
  | Except.ok false => []

/-- One upstream event through the `Where` handlers: the downstream calls
made and the elements on which the predicate ran. -/
def whereStep {τ : Type} (p : τ → Except Nat Bool) (e : Ev τ) :
    List (Ev τ) × List τ :=
  match e with
  | Ev.next x => (whereOnNext p x, [x])
  | Ev.completed => ([Ev.completed], [])
  | Ev.error err => ([Ev.error err], [])

/-- Run one `Where` subscription: `sub` is whether the upstream
subscription has been disposed (events are only processed while it is
live; no handler ever disposes it). -/
def whereRun {τ : Type} (p : τ → Except Nat Bool) (sub : Bool) :
    List (Ev τ) → List (Ev τ) × List τ × Bool
  | [] => ([], [], sub)
  | e :: rest =>
    if sub then ([], [], sub)
    else
      let o := whereStep p e
      let q := whereRun p sub rest
      (o.1 ++ q.1, o.2 ++ q.2.1, q.2.2)

/-- The predicate used in the C4 counterexample: throws `7` on input `1`,
accepts everything else. -/
def wherePredC4 (x : Nat) : Except Nat Bool :=
  if x = 1 then Except.error 7 else Except.ok true

/-!
### Subject family  (rx-operators.hpp, `SubjectState` line 320,
`ObservableSubject::Subscribe` lines 362-394, `AsyncSubject` lines 642-784)

Observers are identified by opaque `Nat` ids; the observer table is a
`List (Option Nat)` where `none` is a tombstone slot left by
`RemoveObserver`.  A `Subscribe` returns the events synchronously
delivered to the new observer, the kind of disposable returned
(`Disposable::Empty()` or the removal disposable `d`), and the new subject
state.  The `OnCompleted`/`OnError` fan-out returns `(id, event)` pairs:
the events delivered to each attached observer.
-/

/-- `SubjectState::type`. -/
inductive SubjectStateK where
  | Invalid : SubjectStateK
  | Forwarding : SubjectStateK
  | Completed : SubjectStateK
  | Error : SubjectStateK
deriving DecidableEq

/-- Which disposable a `Subscribe` returns: `Disposable::Empty()` or the
removal disposable built at the top of `Subscribe`. -/
inductive SubResult where
  | emptyDisposable : SubResult
  | removalDisposable : SubResult
deriving DecidableEq

/-- Put an observer into the first tombstone (`none`) slot, if there is
one: the slot-reuse loop of the subscribe paths. -/
def setFirstVacant : List (Option Nat) → Nat → Option (List (Option Nat))
  | [], _ => none
  | none :: rest, o => some (some o :: rest)
  | some x :: rest, o =>
    match setFirstVacant rest o with
    | some l => some (some x :: l)
    | none => none

/-- State of an `AsyncSubject<T>`: the free-slot counter, the cached last
value, the subject state, the cached error and the observer table. -/
structure AsyncSubjectState (τ : Type) where
  slotCount : Nat
  value : Option τ
  state : SubjectStateK
  error : Option Nat
  observers : List (Option Nat)
deriving DecidableEq

/-- `AsyncSubject::Subscribe`: on `Completed`, deliver the recorded value
(if any) then `completed` and return `Empty`; on `Error`, deliver the
stored error and return `Empty`; on `Forwarding`, attach the observer
(reusing a tombstone slot when `slotCount > 0`, else appending) and
deliver nothing. -/
def asyncSubjectSubscribe {τ : Type} (s : AsyncSubjectState τ) (o : Nat) :
    List (Ev τ) × SubResult × AsyncSubjectState τ :=
  match s.state with
  | SubjectStateK.Completed =>
    ((match s.value with | some v => [Ev.next v] | none => []) ++ [Ev.completed],
     SubResult.emptyDisposable, s)
  | SubjectStateK.Error =>
    ((match s.error with | some e => [Ev.error e] | none => []),
     SubResult.emptyDisposable, s)
  | SubjectStateK.Forwarding =>
    if s.slotCount > 0 then
      match setFirstVacant s.observers o with
      | some l =>
        ([], SubResult.removalDisposable,
         ⟨s.slotCount - 1, s.value, s.state, s.error, l⟩)
      | none => ([], SubResult.removalDisposable, s)
    else
      ([], SubResult.removalDisposable,
       ⟨s.slotCount, s.value, s.state, s.error, s.observers ++ [some o]⟩)
  | SubjectStateK.Invalid => ([], SubResult.removalDisposable, s)

/-- `AsyncSubject::OnNext`: while forwarding, only replace the cached
value; deliver nothing to anyone. -/
def asyncSubjectOnNext {τ : Type} (s : AsyncSubjectState τ) (x : τ) :
    List (Nat × Ev τ) × AsyncSubjectState τ :=
  if s.state = SubjectStateK.Forwarding then
    ([], ⟨s.slotCount, some x, s.state, s.error, s.observers⟩)
  else ([], s)

/-- `AsyncSubject::OnCompleted`: set state to `Completed`, move the
observer table out, and deliver the cached value (if any) followed by
`completed` to every attached observer. -/
def asyncSubjectOnCompleted {τ : Type} (s : AsyncSubjectState τ) :
    List (Nat × Ev τ) × AsyncSubjectState τ :=
  ((s.observers.filterMap id).flatMap (fun i =>
      (match s.value with | some v => [(i, Ev.next v)] | none => []) ++
      [(i, Ev.completed)]),
   ⟨s.slotCount, s.value, SubjectStateK.Completed, s.error, []⟩)

/-- `AsyncSubject::OnError`: set state to `Error`, store the error, move
the observer table out and deliver the error to every attached observer. -/
def asyncSubjectOnError {τ : Type} (s : AsyncSubjectState τ) (e : Nat) :
    List (Nat × Ev τ) × AsyncSubjectState τ :=
  ((s.observers.filterMap id).map (fun i => (i, Ev.error e)),
   ⟨s.slotCount, s.value, SubjectStateK.Error, some e, []⟩)

/-- State of an `ObservableSubject` (the base of the Publish `Subject` and
of `GroupedSubject`): subject state, stored error, observer table. -/
structure ObservableSubjectState (τ : Type) where
  state : SubjectStateK
  error : Option Nat
  observers : List (Option Nat)
deriving DecidableEq

/-- `ObservableSubject::Subscribe`: under the lock, a subscriber arriving
in state `Completed` gets exactly `OnCompleted` and `Empty` back; in state
`Error` exactly `OnError(error)` and `Empty`; otherwise it is attached
(first tombstone slot, else appended) and `d` is returned. -/
def observableSubjectSubscribe {τ : Type} (s : ObservableSubjectState τ)
    (o : Nat) : List (Ev τ) × SubResult × ObservableSubjectState τ :=
  match s.state with
  | SubjectStateK.Completed => ([Ev.completed], SubResult.emptyDisposable, s)
  | SubjectStateK.Error =>
    ((match s.error with | some e => [Ev.error e] | none => []),
     SubResult.emptyDisposable, s)
  | _ =>
    match setFirstVacant s.observers o with
    | some l => ([], SubResult.removalDisposable, ⟨s.state, s.error, l⟩)
    | none =>
      ([], SubResult.removalDisposable,
       ⟨s.state, s.error, s.observers ++ [some o]⟩)

/-!
### ForEach  (rx-operators.hpp, `ForEach`, lines 907-941)

`ForEach` subscribes a `CreatedObserver` whose on-next applies the user
callback, whose on-completed sets `done`, and whose on-error sets `done`
and stores the error; it then waits on the condition variable until
`done`, and finally rethrows the stored error if one was captured.  The
model records the values the callback was applied to; the blocking wait is
modelled by returning `none` while no terminal event has arrived.  A
`CreatedObserver` clears its handlers on the first terminal event, so
events after a terminal are dropped.
-/

/-- State of the observer `ForEach` subscribes: values the `onNext`
callback was applied to, whether a terminal event arrived, and the
captured error. -/
structure ForEachState (τ : Type) where
  calls : List τ
  done : Bool
  err : Option Nat
deriving DecidableEq

/-- One event into `ForEach`'s observer. -/
def forEachStep {τ : Type} (s : ForEachState τ) (e : Ev τ) : ForEachState τ :=
  if s.done then s else
  match e with
  | Ev.next x => ⟨s.calls ++ [x], s.done, s.err⟩
  | Ev.completed => ⟨s.calls, true, s.err⟩
  | Ev.error er => ⟨s.calls, true, some er⟩

/-- Feed the whole upstream delivery sequence to `ForEach`'s observer. -/
def forEachRun {τ : Type} (trace : List (Ev τ)) : ForEachState τ :=
  trace.foldl forEachStep ⟨[], false, none⟩

/-- The observable behaviour of `ForEach(source, onNext)` on a source
delivering `trace`: `none` while no terminal event arrived (the wait on
the condition variable has not been released); otherwise the list of
values the callback was applied to, paired with the rethrown error if the
source terminated with one. -/
def forEachResult {τ : Type} (trace : List (Ev τ)) :
    Option (List τ × Option Nat) :=
  let s := forEachRun trace
  if s.done then some (s.calls, s.err) else none

/-!
### Merge  (rx-operators.hpp, `detail::MergeSubscriber` lines 966-1008,
`Merge` lines 1010-1037)

`Merge` allocates one shared `State` whose `pendingComplete` is an
`std::atomic<size_t>` initialised to the number of sources; the
`CreateObservable` lambda captures it, so every subscription to the
returned observable decrements the same counter.  `size_t` arithmetic
wraps modulo `2^64`.  Per subscription, the handlers are: on-next
`observer->OnNext`; on-completed `if (--pendingComplete == 0)`
`{ OnCompleted; cd.Dispose(); }`; on-error `{ OnError; cd.Dispose(); }`.
`cd.Dispose()` disposes every source subscription of that subscription, so
later source events are not delivered to the handlers (`disposed`).

The interleaved delivery order of the sources is modelled by
`Interleave ls trace`: `trace` consumes, one head at a time, the
per-source delivery sequences `ls`.
-/

/-- `2^64`: the modulus of `size_t` arithmetic. -/
def szW : Nat := 18446744073709551616

/-- The per-subscription merge state: the shared `pendingComplete`
counter (a `size_t`, so a residue modulo `szW`) and whether this
subscription's `ComposableDisposable` has been disposed. -/
structure MergeState where
  pending : Nat
  disposed : Bool
deriving DecidableEq

/-- `--pendingComplete` on an `std::atomic<size_t>`: decrement with wrap
modulo `2^64`. -/
def mergeDecr (p : Nat) : Nat :=
  (p + (szW - 1)) % szW

/-- One source event through a merge subscription's handlers. -/
def mergeStep {τ : Type} (st : MergeState) (e : Ev τ) :
    List (Ev τ) × MergeState :=
  if st.disposed then ([], st) else
  match e with
  | Ev.next x => ([Ev.next x], st)
  | Ev.completed =>
    let p := mergeDecr st.pending
    if p = 0 then ([Ev.completed], ⟨p, true⟩)
    else ([], ⟨p, st.disposed⟩)
  | Ev.error er => ([Ev.error er], ⟨st.pending, true⟩)

/-- Run one merge subscription over an interleaved delivery sequence. -/
def mergeRunFrom {τ : Type} (st : MergeState) :
    List (Ev τ) → List (Ev τ) × MergeState
  | [] => ([], st)
  | e :: rest =>
    let p := mergeStep st e
    let q := mergeRunFrom p.2 rest
    (p.1 ++ q.1, q.2)

/-- The delivery sequence of a source that emits `xs` and completes. -/
def mergeSource {τ : Type} (xs : List τ) : List (Ev τ) :=
  xs.map Ev.next ++ [Ev.completed]

/-- The delivery sequences of a family of completing sources. -/
def mergeSources {τ : Type} (xss : List (List τ)) : List (List (Ev τ)) :=
  xss.map mergeSource

/-- The number of sources that still have deliveries to make. -/
def liveCount {τ : Type} (ls : List (List (Ev τ))) : Nat :=
  ls.countP (fun l => !l.isEmpty)

/-- `Interleave ls trace`: the single sequence `trace` is an interleaving
of the per-source sequences `ls` — each step consumes the head of one
source, and per-source relative order is preserved. -/
inductive Interleave {α : Type} : List (List α) → List α → Prop where
  | nil : ∀ ls : List (List α), (∀ l ∈ ls, l = []) → Interleave ls []
  | cons : ∀ (ls : List (List α)) (i : Fin ls.length) (x : α)
      (tl out : List α), ls.get i = x :: tl →
      Interleave (ls.set i.1 tl) out → Interleave ls (x :: out)

/-- A per-source delivery sequence during a merge run: either already
fully consumed, or some `next` events followed by one `completed`. -/
def MergeSrcWF {τ : Type} (l : List (Ev τ)) : Prop :=
  l = [] ∨ ∃ xs : List τ, l = xs.map Ev.next ++ [Ev.completed]

/-- Claim C1 (code evaluated at the failing input): subscribing
`Take(source, 2)` to an upstream that delivers one value and then
`completed` yields downstream `[next 1]` and no `completed` at all — the
on-completed handler requires `outbound == 0 && inbound <= 0`, which fails
when the upstream completes after fewer than `n` values.  The claim (and
spec §8.5, §4.G) requires the downstream sequence to terminate with
`completed` whenever the upstream completes. -/
theorem take_short_source_never_completes :
    takeRun 2 [Ev.next 1, Ev.completed] = ([Ev.next 1], ⟨1, 1, false⟩) ∧
    Ev.completed ∉ (takeRun 2 [Ev.next 1, Ev.completed]).1 := by
  constructor
  · rfl
  · decide

/-- Running a scan sink whose accumulation is already set over a block of
`next` events emits the successive accumulations and then continues with
the rest of the upstream sequence. -/
theorem scanRunFrom_nexts {τ α : Type} (seed : Option α) (f : α → τ → α)
    (sdr : τ → α) (tail : List (Ev τ)) :
    ∀ (xs : List τ) (a : α) (sc : Bool),
    scanRunFrom seed f sdr ⟨some a, sc, false⟩ (xs.map Ev.next ++ tail) =
      ((scanAccums f a xs).map Ev.next ++
        (scanRunFrom seed f sdr ⟨some (xs.foldl f a), sc, false⟩ tail).1,
       (scanRunFrom seed f sdr ⟨some (xs.foldl f a), sc, false⟩ tail).2) := by
  intro xs
  induction xs with
  | nil => intro a sc; simp [scanRunFrom, scanAccums]
  | cons x rest ih =>
    intro a sc
    have h1 : scanRunFrom seed f sdr ⟨some a, sc, false⟩
        ((x :: rest).map Ev.next ++ tail) =
        ([Ev.next (f a x)] ++
          (scanRunFrom seed f sdr ⟨some (f a x), sc, false⟩
            (rest.map Ev.next ++ tail)).1,
         (scanRunFrom seed f sdr ⟨some (f a x), sc, false⟩
            (rest.map Ev.next ++ tail)).2) := rfl
    rw [h1, ih (f a x) sc]
    simp [scanAccums]

/-- Claim C2: for `Scan(source, seed s, accumulator f)` and an upstream
sequence `[x1..xk]` followed by `completed`, downstream is
`f(s,x1), f(f(s,x1),x2), …` followed by `completed` (for `k = 0` the seed
itself is emitted before `completed`); and downstream completes iff
upstream completes: without an upstream terminal no `completed` is
emitted, and an upstream `error` is forwarded as `error`, not
`completed`. -/
theorem scan_seeded_spec {τ α : Type} (f : α → τ → α) (s : α) (sdr : τ → α) :
    (∀ xs : List τ,
      (scanRun (some s) f sdr (xs.map Ev.next ++ [Ev.completed])).1 =
        (if xs.isEmpty then [Ev.next s]
         else (scanAccums f s xs).map Ev.next) ++ [Ev.completed]) ∧
    (∀ xs : List τ,
      (scanRun (some s) f sdr (xs.map Ev.next)).1 =
        (scanAccums f s xs).map Ev.next) ∧
    (∀ (xs : List τ) (e : Nat),
      (scanRun (some s) f sdr (xs.map Ev.next ++ [Ev.error e])).1 =
        (scanAccums f s xs).map Ev.next ++ [Ev.error e]) := by
  refine ⟨?_, ?_, ?_⟩
  · intro xs
    cases xs with
    | nil => rfl
    | cons x rest =>
      have h1 : scanRun (some s) f sdr ((x :: rest).map Ev.next ++ [Ev.completed]) =
          ([Ev.next (f s x)] ++
            (scanRunFrom (some s) f sdr ⟨some (f s x), false, false⟩
              (rest.map Ev.next ++ [Ev.completed])).1,
           (scanRunFrom (some s) f sdr ⟨some (f s x), false, false⟩
              (rest.map Ev.next ++ [Ev.completed])).2) := rfl
      rw [h1, scanRunFrom_nexts]
      simp [scanRunFrom, scanStep, scanOnCompleted, scanAccums]
  · intro xs
    cases xs with
    | nil => rfl
    | cons x rest =>
      have h1 : scanRun (some s) f sdr ((x :: rest).map Ev.next) =
          ([Ev.next (f s x)] ++
            (scanRunFrom (some s) f sdr ⟨some (f s x), false, false⟩
              (rest.map Ev.next)).1,
           (scanRunFrom (some s) f sdr ⟨some (f s x), false, false⟩
              (rest.map Ev.next)).2) := rfl
      have h := scanRunFrom_nexts (some s) f sdr [] rest (f s x) false
      simp only [List.append_nil] at h
      rw [h1, h]
      simp [scanRunFrom, scanAccums]
  · intro xs e
    cases xs with
    | nil => rfl
    | cons x rest =>
      have h1 : scanRun (some s) f sdr ((x :: rest).map Ev.next ++ [Ev.error e]) =
          ([Ev.next (f s x)] ++
            (scanRunFrom (some s) f sdr ⟨some (f s x), false, false⟩
              (rest.map Ev.next ++ [Ev.error e])).1,
           (scanRunFrom (some s) f sdr ⟨some (f s x), false, false⟩
              (rest.map Ev.next ++ [Ev.error e])).2) := rfl
      rw [h1, scanRunFrom_nexts]
      simp [scanRunFrom, scanStep, scanOnError, scanAccums]

/-- A scan sink with a present seed never flips `seederCalled`, whatever
the state it starts from. -/
theorem scanRunFrom_seeder_untouched {τ α : Type} (s : α) (f : α → τ → α)
    (sdr : τ → α) :
    ∀ (trace : List (Ev τ)) (st : ScanState α),
    (scanRunFrom (some s) f sdr st trace).2.seederCalled = st.seederCalled := by
  intro trace
  induction trace with
  | nil => intro st; rfl
  | cons e rest ih =>
    intro st
    cases e with
    | next t =>
      simp only [scanRunFrom, scanStep, scanOnNext]
      by_cases hd : st.disposed
      · simp [hd, ih]
      · cases hacc : st.accumulation with
        | none => simp [hd, hacc, ih]
        | some a => simp [hd, hacc, ih]
    | completed =>
      simp only [scanRunFrom, scanStep, scanOnCompleted]
      by_cases hd : st.disposed
      · simp [hd, ih]
      · cases hacc : st.accumulation with
        | none => simp [hd, hacc, ih]
        | some a => simp [hd, hacc, ih]
    | error err =>
      simp only [scanRunFrom, scanStep, scanOnError]
      by_cases hd : st.disposed
      · simp [hd, ih]
      · simp [hd, ih]

/-- Claim C9: in the seeded overload of `Scan` the installed seeder (whose
body calls `abort()`) is never invoked: on every upstream delivery
sequence — well-formed or not — the seeder branch of `OnNext` is
unreachable because the seed maybe is always set. -/
theorem scan_seeded_never_calls_seeder {τ α : Type} (s : α) (f : α → τ → α)
    (sdr : τ → α) (trace : List (Ev τ)) :
    (scanRun (some s) f sdr trace).2.seederCalled = false := by
  simpa using scanRunFrom_seeder_untouched s f sdr trace ⟨none, false, false⟩

/-- Once the inner observer has been cleared, every further call on the
wrapper delivers nothing and leaves the state unchanged. -/
theorem adRun_cleared {τ : Type} (thr : Ev τ → Bool) :
    ∀ (calls : List (Ev τ)) (st : ADState), st.hasObserver = false →
    (adRun thr st calls).1 = [] ∧ (adRun thr st calls).2 = st := by
  intro calls
  induction calls with
  | nil => intro st _; exact ⟨rfl, rfl⟩
  | cons e rest ih =>
    intro st h
    have hstep : adStep thr st e = ([], st) := by
      cases e with
      | next x => simp [adStep, adOnNext, h]
      | completed => simp [adStep, adOnCompleted, h]
      | error err => simp [adStep, adOnError, h]
    simp only [adRun, hstep]
    have := ih st h
    simp [this.1, this.2]

/-- Counterexample to claim C3: a fresh `CreatedAutoDetachObserver` whose
inner observer does not throw, on its first `OnCompleted`, clears the
inner observer but leaves the serial disposable undisposed —
`disposer.dismiss()` cancels the unwind on the normal return path, so
upstream is not torn down, contradicting the claim that the first
terminal call disposes the serial. -/
theorem autodetach_completed_no_dispose_cex :
    (adOnCompleted (fun _ : Ev Nat => false) ⟨true, false⟩).2.hasObserver = false ∧
    (adOnCompleted (fun _ : Ev Nat => false) ⟨true, false⟩).2.disposed = false := by
  exact ⟨rfl, rfl⟩

/-- Claim C3 as amended: on the first `OnCompleted` or `OnError` the
wrapper clears the inner observer, so every subsequent call delivers
nothing to it; the serial disposable is disposed exactly when the inner
delivery of the terminal event throws, and is left undisposed on a normal
return. -/
theorem autodetach_first_terminal {τ : Type} (thr : Ev τ → Bool) :
    ((adOnCompleted thr ⟨true, false⟩).1 = [Ev.completed] ∧
     (adOnCompleted thr ⟨true, false⟩).2.hasObserver = false ∧
     (adOnCompleted thr ⟨true, false⟩).2.disposed = thr Ev.completed ∧
     ∀ calls : List (Ev τ),
       (adRun thr (adOnCompleted thr ⟨true, false⟩).2 calls).1 = []) ∧
    (∀ e : Nat,
     (adOnError thr ⟨true, false⟩ e).1 = [Ev.error e] ∧
     (adOnError thr ⟨true, false⟩ e).2.hasObserver = false ∧
     (adOnError thr ⟨true, false⟩ e).2.disposed = thr (Ev.error e) ∧
     ∀ calls : List (Ev τ),
       (adRun thr (adOnError thr ⟨true, false⟩ e).2 calls).1 = []) := by
  constructor
  · have hobs : (adOnCompleted thr ⟨true, false⟩).2.hasObserver = false := by
      simp only [adOnCompleted]
      by_cases h : thr Ev.completed <;> simp [h]
    refine ⟨?_, hobs, ?_, fun calls => (adRun_cleared thr calls _ hobs).1⟩
    · simp only [adOnCompleted]
      by_cases h : thr Ev.completed <;> simp [h]
    · simp only [adOnCompleted]
      by_cases h : thr Ev.completed <;> simp [h]
  · intro e
    have hobs : (adOnError thr ⟨true, false⟩ e).2.hasObserver = false := by
      simp only [adOnError]
      by_cases h : thr (Ev.error e) <;> simp [h]
    refine ⟨?_, hobs, ?_, fun calls => (adRun_cleared thr calls _ hobs).1⟩
    · simp only [adOnError]
      by_cases h : thr (Ev.error e) <;> simp [h]
    · simp only [adOnError]
      by_cases h : thr (Ev.error e) <;> simp [h]

/-- A live `Where` subscription never becomes disposed: no handler
disposes it. -/
theorem whereRun_stays_live {τ : Type} (p : τ → Except Nat Bool) :
    ∀ trace : List (Ev τ), (whereRun p false trace).2.2 = false := by
  intro trace
  induction trace with
  | nil => rfl
  | cons e rest ih => simp [whereRun, ih]

/-- A live `Where` subscription evaluates the predicate on every upstream
element. -/
theorem whereRun_evals {τ : Type} (p : τ → Except Nat Bool) :
    ∀ trace : List (Ev τ), (whereRun p false trace).2.1 = evVals trace := by
  intro trace
  induction trace with
  | nil => rfl
  | cons e rest ih =>
    cases e with
    | next x => simp [whereRun, whereStep, evVals, ih]
    | completed => simpa [whereRun, whereStep, evVals] using ih
    | error err => simpa [whereRun, whereStep, evVals] using ih

/-- Counterexample to claim C4: with a predicate that throws `7` on `1`
and accepts everything else, the upstream delivery `[next 1, next 2]`
makes the `Where` handlers call `OnError 7` downstream — but the
subscription is never disposed, the predicate is evaluated on the later
element `2`, and that element is forwarded; the claim says the operator
terminates at the throw so that no further upstream event is processed. -/
theorem where_throw_cex :
    whereRun wherePredC4 false [Ev.next 1, Ev.next 2] =
      ([Ev.error 7, Ev.next 2], [1, 2], false) ∧
    (whereRun wherePredC4 false [Ev.next 1, Ev.next 2]).2.2 ≠ true := by
  exact ⟨rfl, fun h => nomatch h⟩

/-- Claim C4 as amended: when the predicate throws on an element, the
exception is delivered downstream as `error` and the element is not
forwarded as `next`; but the operator does not terminate — the upstream
subscription is left undisposed and every later upstream event is still
processed (the predicate runs on each later element, and the handler
outputs for the tail are still produced). -/
theorem where_predicate_throw_no_terminate {τ : Type}
    (p : τ → Except Nat Bool) (x : τ) (e : Nat) (h : p x = Except.error e)
    (tail : List (Ev τ)) :
    whereRun p false (Ev.next x :: tail) =
      (Ev.error e :: (whereRun p false tail).1,
       x :: evVals tail, false) := by
  have hstep : whereStep p (Ev.next x) = ([Ev.error e], [x]) := by
    simp [whereStep, whereOnNext, h]
  simp only [whereRun, hstep]
  simp [whereRun_stays_live, whereRun_evals]

/-- Witness for the amended C4 theorem at the concrete predicate
`wherePredC4`, throwing element `1` and tail `[next 2]`. -/
theorem where_predicate_throw_no_terminate_witness :
    wherePredC4 1 = Except.error 7 ∧
    whereRun wherePredC4 false [Ev.next 1, Ev.next 2] =
      (Ev.error 7 :: (whereRun wherePredC4 false [Ev.next 2]).1,
       1 :: evVals [Ev.next 2], false) := by
  exact ⟨rfl, where_predicate_throw_no_terminate wherePredC4 1 7 rfl [Ev.next 2]⟩

/-- If the observer table has a tombstone, the slot-reuse loop finds one
and the observer ends up in the table. -/
theorem setFirstVacant_mem :
    ∀ (l : List (Option Nat)) (o : Nat), Option.none ∈ l →
    ∃ l', setFirstVacant l o = some l' ∧ some o ∈ l' := by
  intro l
  induction l with
  | nil => intro o h; cases h
  | cons a rest ih =>
    intro o h
    cases a with
    | none => exact ⟨some o :: rest, rfl, List.mem_cons_self _ _⟩
    | some x =>
      have hr : Option.none ∈ rest := by
        rcases List.mem_cons.mp h with h1 | h1
        · cases h1
        · exact h1
      rcases ih o hr with ⟨l', hset, hmem⟩
      exact ⟨some x :: l', by simp [setFirstVacant, hset],
             List.mem_cons_of_mem _ hmem⟩

/-- Claim C6: for `AsyncSubject` — (a) `OnNext` while forwarding only
replaces the cached value and delivers nothing; (b) `OnCompleted`
delivers the last cached value (if any) followed by `completed` to every
attached observer and empties the table; (c) a subscriber arriving while
forwarding is only attached (nothing is delivered at subscribe time),
provided the free-slot counter is honest (it is zero, or a tombstone
exists); (d) a subscriber arriving after completion with a recorded value
gets that value then `completed` and the table is untouched; (e) the S4
scenario: publish 1,2,3; attach O1; complete; attach O2 gives
O1 = [3, completed] and O2 = [3, completed]. -/
theorem async_subject_spec {τ : Type} :
    (∀ (sc : Nat) (v : Option τ) (err : Option Nat)
       (obsList : List (Option Nat)) (x : τ),
      asyncSubjectOnNext ⟨sc, v, SubjectStateK.Forwarding, err, obsList⟩ x =
        ([], ⟨sc, some x, SubjectStateK.Forwarding, err, obsList⟩)) ∧
    (∀ (sc : Nat) (v : Option τ) (err : Option Nat)
       (obsList : List (Option Nat)),
      asyncSubjectOnCompleted ⟨sc, v, SubjectStateK.Forwarding, err, obsList⟩ =
        ((obsList.filterMap id).flatMap (fun i =>
            (match v with | some w => [(i, Ev.next w)] | none => []) ++
            [(i, Ev.completed)]),
         ⟨sc, v, SubjectStateK.Completed, err, []⟩)) ∧
    (∀ (sc : Nat) (v : Option τ) (err : Option Nat)
       (obsList : List (Option Nat)) (o : Nat),
      sc = 0 ∨ Option.none ∈ obsList →
      (asyncSubjectSubscribe ⟨sc, v, SubjectStateK.Forwarding, err, obsList⟩ o).1 = [] ∧
      (asyncSubjectSubscribe ⟨sc, v, SubjectStateK.Forwarding, err, obsList⟩ o).2.1 =
        SubResult.removalDisposable ∧
      some o ∈ (asyncSubjectSubscribe ⟨sc, v, SubjectStateK.Forwarding, err, obsList⟩ o).2.2.observers) ∧
    (∀ (sc : Nat) (err : Option Nat) (obsList : List (Option Nat))
       (o : Nat) (v : τ),
      asyncSubjectSubscribe ⟨sc, some v, SubjectStateK.Completed, err, obsList⟩ o =
        ([Ev.next v, Ev.completed], SubResult.emptyDisposable,
         ⟨sc, some v, SubjectStateK.Completed, err, obsList⟩)) ∧
    (asyncSubjectOnNext (⟨0, none, SubjectStateK.Forwarding, none, []⟩ : AsyncSubjectState Nat) 1 =
        ([], ⟨0, some 1, SubjectStateK.Forwarding, none, []⟩) ∧
     asyncSubjectOnNext (⟨0, some 1, SubjectStateK.Forwarding, none, []⟩ : AsyncSubjectState Nat) 2 =
        ([], ⟨0, some 2, SubjectStateK.Forwarding, none, []⟩) ∧
     asyncSubjectOnNext (⟨0, some 2, SubjectStateK.Forwarding, none, []⟩ : AsyncSubjectState Nat) 3 =
        ([], ⟨0, some 3, SubjectStateK.Forwarding, none, []⟩) ∧
     asyncSubjectSubscribe (⟨0, some 3, SubjectStateK.Forwarding, none, []⟩ : AsyncSubjectState Nat) 1 =
        ([], SubResult.removalDisposable, ⟨0, some 3, SubjectStateK.Forwarding, none, [some 1]⟩) ∧
     asyncSubjectOnCompleted (⟨0, some 3, SubjectStateK.Forwarding, none, [some 1]⟩ : AsyncSubjectState Nat) =
        ([(1, Ev.next 3), (1, Ev.completed)], ⟨0, some 3, SubjectStateK.Completed, none, []⟩) ∧
     asyncSubjectSubscribe (⟨0, some 3, SubjectStateK.Completed, none, []⟩ : AsyncSubjectState Nat) 2 =
        ([Ev.next 3, Ev.completed], SubResult.emptyDisposable,
         ⟨0, some 3, SubjectStateK.Completed, none, []⟩)) := by
  refine ⟨?_, ?_, ?_, ?_, ?_⟩
  · intro sc v err obsList x; rfl
  · intro sc v err obsList; rfl
  · intro sc v err obsList o h
    cases sc with
    | zero =>
      refine ⟨rfl, rfl, ?_⟩
      simp [asyncSubjectSubscribe]
    | succ n =>
      have hmem : Option.none ∈ obsList := by
        rcases h with h0 | h0
        · cases h0
        · exact h0
      rcases setFirstVacant_mem obsList o hmem with ⟨l', hset, hin⟩
      refine ⟨?_, ?_, ?_⟩ <;>
        simp [asyncSubjectSubscribe, hset, hin]
  · intro sc err obsList o v; rfl
  · exact ⟨rfl, rfl, rfl, rfl, rfl, rfl⟩

/-- Witness for the C6 theorem: its attach clause applied to the fresh
subject and observer 5 (free-slot counter zero, so the hypothesis holds on
the left). -/
theorem async_subject_spec_witness :
    (asyncSubjectSubscribe (⟨0, none, SubjectStateK.Forwarding, none, []⟩ : AsyncSubjectState Nat) 5).1 = [] ∧
    (asyncSubjectSubscribe (⟨0, none, SubjectStateK.Forwarding, none, []⟩ : AsyncSubjectState Nat) 5).2.1 =
      SubResult.removalDisposable ∧
    some 5 ∈ (asyncSubjectSubscribe (⟨0, none, SubjectStateK.Forwarding, none, []⟩ : AsyncSubjectState Nat) 5).2.2.observers := by
  exact async_subject_spec.2.2.1 0 none none [] 5 (Or.inl rfl)

/-- Claim C7: for the `ObservableSubject` family (Publish and Grouped
subjects), a `Subscribe` arriving in state `Completed` synchronously
delivers exactly `OnCompleted`, does not touch the observer table, and
returns `Disposable::Empty()`; in state `Error` it delivers exactly
`OnError` with the stored error, does not touch the table, and returns
`Empty`. -/
theorem observable_subject_terminal_subscribe {τ : Type} :
    (∀ (err : Option Nat) (obsList : List (Option Nat)) (o : Nat),
      observableSubjectSubscribe
          (⟨SubjectStateK.Completed, err, obsList⟩ : ObservableSubjectState τ) o =
        ([Ev.completed], SubResult.emptyDisposable,
         ⟨SubjectStateK.Completed, err, obsList⟩)) ∧
    (∀ (e : Nat) (obsList : List (Option Nat)) (o : Nat),
      observableSubjectSubscribe
          (⟨SubjectStateK.Error, some e, obsList⟩ : ObservableSubjectState τ) o =
        ([Ev.error e], SubResult.emptyDisposable,
         ⟨SubjectStateK.Error, some e, obsList⟩)) := by
  exact ⟨fun err obsList o => rfl, fun e obsList o => rfl⟩

/-- While no terminal event has arrived, a block of `next` events only
accumulates callback applications. -/
theorem forEachRun_nexts {τ : Type} :
    ∀ (xs : List τ) (acc : List τ),
    (xs.map Ev.next).foldl forEachStep ⟨acc, false, none⟩ =
      (⟨acc ++ xs, false, none⟩ : ForEachState τ) := by
  intro xs
  induction xs with
  | nil => intro acc; simp
  | cons x rest ih =>
    intro acc
    simp only [List.map_cons, List.foldl_cons, forEachStep]
    have := ih (acc ++ [x])
    simpa using this

/-- Claim C8: `ForEach(source, on_next)` applies the callback to every
upstream value; when the source terminates with `completed` it returns
normally (no error is rethrown), when it terminates with `error e` it
rethrows `e` to the caller, and while the source has not terminated it is
still blocked on the condition variable (no result). -/
theorem forEach_spec {τ : Type} :
    (∀ xs : List τ,
      forEachResult (xs.map Ev.next ++ [Ev.completed]) = some (xs, none)) ∧
    (∀ (xs : List τ) (e : Nat),
      forEachResult (xs.map Ev.next ++ [Ev.error e]) = some (xs, some e)) ∧
    (∀ xs : List τ, forEachResult (xs.map Ev.next) = none) := by
  refine ⟨?_, ?_, ?_⟩
  · intro xs
    simp [forEachResult, forEachRun, List.foldl_append, forEachRun_nexts,
      forEachStep]
  · intro xs e
    simp [forEachResult, forEachRun, List.foldl_append, forEachRun_nexts,
      forEachStep]
  · intro xs
    simp [forEachResult, forEachRun, forEachRun_nexts]

/-- An interleaving is a permutation of the concatenation of its
sources. -/
theorem interleave_perm {α : Type} :
    ∀ {ls : List (List α)} {out : List α},
    Interleave ls out → out.Perm ls.flatten := by
  intro ls out h
  induction h with
  | nil ls hall =>
    have h0 : ls.flatten = [] := List.flatten_eq_nil_iff.mpr hall
    rw [h0]
  | cons ls i x tl out hget hint ih =>
    have hdec : ls = ls.take i.1 ++ (x :: tl) :: ls.drop (i.1 + 1) := by
      conv_lhs => rw [← List.take_append_drop i.1 ls]
      rw [← hget, List.get_cons_drop]
    have hset : ls.set i.1 tl = ls.take i.1 ++ tl :: ls.drop (i.1 + 1) := by
      rw [List.set_eq_take_append_cons_drop, if_pos i.2]
    have h2 : (ls.set i.1 tl).flatten =
        (ls.take i.1).flatten ++ (tl ++ (ls.drop (i.1 + 1)).flatten) := by
      rw [hset]
      simp [List.flatten_append]
    have h3 : ls.flatten =
        (ls.take i.1).flatten ++
          (x :: (tl ++ (ls.drop (i.1 + 1)).flatten)) := by
      conv_lhs => rw [hdec]
      simp [List.flatten_append]
    rw [h3]
    refine List.Perm.trans (List.Perm.cons x (h2 ▸ ih)) ?_
    exact List.perm_middle.symm

/-- If all sources are exhausted, the interleaving is empty. -/
theorem interleave_out_nil {α : Type} {ls : List (List α)} {out : List α}
    (h : Interleave ls out) (hall : ∀ l ∈ ls, l = []) : out = [] := by
  have hp := interleave_perm h
  rw [List.flatten_eq_nil_iff.mpr hall] at hp
  exact hp.eq_nil

/-- Decrementing a positive in-range `size_t` does not wrap. -/
theorem mergeDecr_pos {p : Nat} (h1 : 0 < p) (h2 : p < szW) :
    mergeDecr p = p - 1 := by
  simp only [szW] at h2
  simp only [mergeDecr, szW]
  omega

/-- A disposed merge subscription delivers nothing further. -/
theorem mergeRunFrom_disposed {τ : Type} (p : Nat) :
    ∀ trace : List (Ev τ), mergeRunFrom ⟨p, true⟩ trace = ([], ⟨p, true⟩) := by
  intro trace
  induction trace with
  | nil => rfl
  | cons e rest ih =>
    cases e <;> simp [mergeRunFrom, mergeStep, ih]

/-- Splitting a merge run across an append of delivery sequences. -/
theorem mergeRunFrom_append {τ : Type} :
    ∀ (l1 l2 : List (Ev τ)) (st : MergeState),
    mergeRunFrom st (l1 ++ l2) =
      ((mergeRunFrom st l1).1 ++ (mergeRunFrom (mergeRunFrom st l1).2 l2).1,
       (mergeRunFrom (mergeRunFrom st l1).2 l2).2) := by
  intro l1
  induction l1 with
  | nil => intro l2 st; simp [mergeRunFrom]
  | cons e rest ih =>
    intro l2 st
    simp only [List.cons_append, mergeRunFrom, List.append_eq]
    rw [ih l2 (mergeStep st e).2]
    simp

/-- Core merge lemma: one subscription, started with `pendingComplete`
equal to the number of still-live sources, run over any interleaving of
well-formed (completing) source sequences, forwards every `next` in
arrival order and emits exactly one `completed` when the last source
completes (none if there was no live source), ending disposed with the
shared counter at zero. -/
theorem mergeRunFrom_interleave {τ : Type} :
    ∀ {ls : List (List (Ev τ))} {trace : List (Ev τ)},
    Interleave ls trace → (∀ l ∈ ls, MergeSrcWF l) → ls.length < szW →
    mergeRunFrom ⟨liveCount ls, false⟩ trace =
      ((evVals trace).map Ev.next ++
        (if liveCount ls = 0 then [] else [Ev.completed]),
       ⟨0, if liveCount ls = 0 then false else true⟩) := by
  intro ls trace h
  induction h with
  | nil ls hall =>
    intro hwf hlen
    have h0 : liveCount ls = 0 := by
      apply List.countP_eq_zero.mpr
      intro l hl
      simp [hall l hl]
    simp [mergeRunFrom, evVals, h0]
  | cons ls i x tl out hget hint ih =>
    intro hwf hlen
    have hmem : ls.get i ∈ ls := ls.get_mem i.1 i.2
    have hpos : 0 < liveCount ls := by
      apply List.countP_pos_iff.mpr
      exact ⟨ls.get i, hmem, by rw [hget]; simp⟩
    have hdec : ls = ls.take i.1 ++ (x :: tl) :: ls.drop (i.1 + 1) := by
      conv_lhs => rw [← List.take_append_drop i.1 ls]
      rw [← hget, List.get_cons_drop]
    have hset : ls.set i.1 tl = ls.take i.1 ++ tl :: ls.drop (i.1 + 1) := by
      rw [List.set_eq_take_append_cons_drop, if_pos i.2]
    have hc1 : liveCount ls =
        liveCount (ls.take i.1) + liveCount (ls.drop (i.1 + 1)) + 1 := by
      conv_lhs => rw [hdec]
      simp [liveCount, List.countP_append, List.countP_cons]
      omega
    have hc2 : liveCount (ls.set i.1 tl) =
        liveCount (ls.take i.1) + liveCount (ls.drop (i.1 + 1)) +
          (if tl.isEmpty then 0 else 1) := by
      rw [hset]
      by_cases htl : tl.isEmpty <;>
        simp [liveCount, List.countP_append, List.countP_cons, htl] <;>
        omega
    have hwfx : MergeSrcWF (x :: tl) := hget ▸ hwf _ hmem
    have hwfset : ∀ l ∈ ls.set i.1 tl, MergeSrcWF l := by
      intro l hl
      rw [hset] at hl
      rcases List.mem_append.mp hl with h1 | h1
      · exact hwf l (List.mem_of_mem_take h1)
      · rcases List.mem_cons.mp h1 with h2 | h2
        · rw [h2]
          rcases hwfx with habs | ⟨xs, hxs⟩
          · exact absurd habs (List.cons_ne_nil x tl)
          · cases xs with
            | nil =>
              simp only [List.map_nil, List.nil_append] at hxs
              injection hxs with hx1 hx2
              exact Or.inl hx2
            | cons y ys =>
              simp only [List.map_cons, List.cons_append] at hxs
              injection hxs with hx1 hx2
              exact Or.inr ⟨ys, hx2⟩
        · exact hwf l (List.mem_of_mem_drop h2)
    have hlenset : (ls.set i.1 tl).length < szW := by
      rw [List.length_set]; exact hlen
    rcases hwfx with habs | ⟨xs, hxs⟩
    · exact absurd habs (List.cons_ne_nil x tl)
    · cases xs with
      | nil =>
        simp only [List.map_nil, List.nil_append] at hxs
        injection hxs with hx1 hx2
        subst hx1; subst hx2
        have hLset : liveCount (ls.set i.1 []) = liveCount ls - 1 := by
          rw [hc2, hc1]; simp
        have hle : liveCount ls < szW :=
          lt_of_le_of_lt (ls.countP_le_length _) hlen
        have hdecr : mergeDecr (liveCount ls) = liveCount ls - 1 :=
          mergeDecr_pos hpos hle
        by_cases hz : liveCount ls - 1 = 0
        · have hall : ∀ l ∈ ls.set i.1 [], l = [] := by
            have h00 : liveCount (ls.set i.1 []) = 0 := by rw [hLset]; exact hz
            intro l hl
            have := List.countP_eq_zero.mp h00 l hl
            simpa using this
          have hout : out = [] := interleave_out_nil hint hall
          subst hout
          simp [mergeRunFrom, mergeStep, hdecr, hz, evVals, hpos.ne']
        · have ihh := ih hwfset hlenset
          rw [hLset] at ihh
          simp only [if_neg hz] at ihh
          simp [mergeRunFrom, mergeStep, hdecr, hz, ihh, evVals, hpos.ne']
      | cons y ys =>
        simp only [List.map_cons, List.cons_append] at hxs
        injection hxs with hx1 hx2
        subst hx1; subst hx2
        have hLset : liveCount (ls.set i.1 (ys.map Ev.next ++ [Ev.completed])) =
            liveCount ls := by
          rw [hc2, hc1]; simp
        have ihh := ih hwfset hlenset
        rw [hLset] at ihh
        simp only [if_neg hpos.ne'] at ihh
        simp [mergeRunFrom, mergeStep, ihh, evVals, hpos.ne']

/-- With no upstream errors and fewer completions than the counter's
value, a merge subscription forwards every `next` and never completes:
the counter stays positive. -/
theorem mergeRunFrom_live {τ : Type} :
    ∀ (trace : List (Ev τ)) (p : Nat),
    (∀ e ∈ trace, isErrorEv e = false) → countCompleted trace < p →
    p < szW →
    mergeRunFrom ⟨p, false⟩ trace =
      ((evVals trace).map Ev.next, ⟨p - countCompleted trace, false⟩) := by
  intro trace
  induction trace with
  | nil => intro p hne hc hw; simp [mergeRunFrom, countCompleted, evVals]
  | cons e rest ih =>
    intro p hne hc hw
    cases e with
    | next v =>
      have hc' : countCompleted rest < p := by
        simp only [countCompleted, List.countP_cons, isCompletedEv] at hc ⊢
        omega
      have := ih p (fun e he => hne e (List.mem_cons_of_mem _ he)) hc' hw
      simp [mergeRunFrom, mergeStep, this, evVals, countCompleted,
        List.countP_cons, isCompletedEv]
    | completed =>
      have hcc : countCompleted (Ev.completed :: rest) =
          countCompleted rest + 1 := by
        simp [countCompleted, List.countP_cons, isCompletedEv]
      have hp1 : 0 < p := by omega
      have hdecr : mergeDecr p = p - 1 := mergeDecr_pos hp1 hw
      have hc' : countCompleted rest < p - 1 := by omega
      have hz : ¬ (p - 1 = 0) := by omega
      have hw' : p - 1 < szW := by omega
      have := ih (p - 1) (fun e he => hne e (List.mem_cons_of_mem _ he)) hc' hw'
      simp only [mergeRunFrom, mergeStep, hdecr, if_neg hz]
      simp [this, evVals, hcc]
      omega
    | error er =>
      have := hne (Ev.error er) (List.mem_cons_self _ _)
      simp [isErrorEv] at this

/-- Starting from the shared counter already wrapped to `szW - j`
(`j = 0` giving counter zero), a completion never brings it back to zero
while fewer than `szW - j` completions arrive, so the downstream never
receives `completed`. -/
theorem mergeRunFrom_wrapped {τ : Type} :
    ∀ (trace : List (Ev τ)) (j : Nat),
    (∀ e ∈ trace, isErrorEv e = false) →
    j + countCompleted trace < szW →
    mergeRunFrom ⟨(szW - j) % szW, false⟩ trace =
      ((evVals trace).map Ev.next,
       ⟨(szW - (j + countCompleted trace)) % szW, false⟩) := by
  intro trace
  induction trace with
  | nil => intro j hne hc; simp [mergeRunFrom, countCompleted, evVals]
  | cons e rest ih =>
    intro j hne hc
    cases e with
    | next v =>
      have hc' : j + countCompleted rest < szW := by
        simp only [countCompleted, List.countP_cons, isCompletedEv] at hc ⊢
        omega
      have := ih j (fun e he => hne e (List.mem_cons_of_mem _ he)) hc'
      simp [mergeRunFrom, mergeStep, this, evVals, countCompleted,
        List.countP_cons, isCompletedEv]
    | completed =>
      have hcc : countCompleted (Ev.completed :: rest) =
          countCompleted rest + 1 := by
        simp [countCompleted, List.countP_cons, isCompletedEv]
      rw [hcc] at hc
      have h64 : szW = 18446744073709551616 := rfl
      have hcL : j + (countCompleted rest + 1) < 18446744073709551616 := by
        rw [← h64]; exact hc
      have hdecr : mergeDecr ((szW - j) % szW) = (szW - (j + 1)) % szW := by
        simp only [mergeDecr, h64]
        omega
      have hz : ¬ ((szW - (j + 1)) % szW = 0) := by
        simp only [h64]
        omega
      have := ih (j + 1) (fun e he => hne e (List.mem_cons_of_mem _ he))
        (by omega)
      have he : j + 1 + countCompleted rest = j + (countCompleted rest + 1) := by
        omega
      simp only [mergeRunFrom, mergeStep, hdecr, if_neg hz,
        Bool.false_eq_true, if_false]
      rw [this]
      simp [evVals, hcc, he]
    | error er =>
      have := hne (Ev.error er) (List.mem_cons_self _ _)
      simp [isErrorEv] at this

/-- `evVals` distributes over append. -/
theorem evVals_append {τ : Type} (l1 l2 : List (Ev τ)) :
    evVals (l1 ++ l2) = evVals l1 ++ evVals l2 := by
  simp [evVals]

/-- The values of a pure block of `next` events. -/
theorem evVals_map_next {τ : Type} (vs : List τ) :
    evVals (vs.map Ev.next) = vs := by
  induction vs with
  | nil => rfl
  | cons v rest ih => simp [evVals] at ih ⊢; exact ih

/-- A pure block of `next` events contains no completion. -/
theorem countCompleted_map_next {τ : Type} (vs : List τ) :
    countCompleted (vs.map Ev.next) = 0 := by
  induction vs with
  | nil => rfl
  | cons v rest ih =>
    simpa [countCompleted, List.countP_cons, isCompletedEv] using ih

/-- The values of one completing source's delivery sequence. -/
theorem evVals_mergeSource {τ : Type} (xs : List τ) :
    evVals (mergeSource xs) = xs := by
  rw [mergeSource, evVals_append, evVals_map_next]
  simp [evVals]

/-- Every completing source is initially live, so the live count is the
number of sources. -/
theorem liveCount_mergeSources {τ : Type} (xss : List (List τ)) :
    liveCount (mergeSources xss) = xss.length := by
  rw [liveCount, mergeSources, List.countP_map]
  apply List.countP_eq_length.mpr
  intro xs _
  simp [mergeSource]

/-- Completing sources are well-formed merge sources. -/
theorem mergeSources_wf {τ : Type} (xss : List (List τ)) :
    ∀ l ∈ mergeSources xss, MergeSrcWF l := by
  intro l hl
  rcases List.mem_map.mp hl with ⟨xs, _, rfl⟩
  exact Or.inr ⟨xs, rfl⟩

/-- Completing sources deliver no error events. -/
theorem mergeSources_flatten_no_errors {τ : Type} (xss : List (List τ)) :
    ∀ e ∈ (mergeSources xss).flatten, isErrorEv e = false := by
  intro e he
  rcases List.mem_flatten.mp he with ⟨l, hl, hel⟩
  rcases List.mem_map.mp hl with ⟨xs, _, rfl⟩
  rw [mergeSource] at hel
  rcases List.mem_append.mp hel with h1 | h1
  · rcases List.mem_map.mp h1 with ⟨v, _, rfl⟩
    rfl
  · rcases List.mem_cons.mp h1 with h2 | h2
    · rw [h2]; rfl
    · cases h2

/-- Each completing source delivers exactly one `completed`. -/
theorem countCompleted_mergeSources_flatten {τ : Type} (xss : List (List τ)) :
    countCompleted (mergeSources xss).flatten = xss.length := by
  induction xss with
  | nil => rfl
  | cons a t ih =>
    have hstep : countCompleted (mergeSources (a :: t)).flatten =
        countCompleted (mergeSource a) + countCompleted (mergeSources t).flatten := by
      simp [mergeSources, countCompleted, List.countP_append]
    have hone : countCompleted (mergeSource a) = 1 := by
      rw [mergeSource, countCompleted, List.countP_append]
      have h0 : countCompleted (a.map Ev.next) = 0 := countCompleted_map_next a
      rw [countCompleted] at h0
      rw [h0]
      rfl
    rw [hstep, hone, ih]
    simp [Nat.add_comm]

/-- The values of the concatenation of all completing sources. -/
theorem evVals_sources_flatten {τ : Type} :
    ∀ xss : List (List τ),
    evVals ((mergeSources xss).flatten) = xss.flatten := by
  intro xss
  induction xss with
  | nil => rfl
  | cons a t ih =>
    have h1 : mergeSources (a :: t) = mergeSource a :: mergeSources t := rfl
    rw [h1, List.flatten_cons, evVals_append, evVals_mergeSource, ih,
      List.flatten_cons]

/-- Lists to multisets: concatenation to sum. -/
theorem multiset_ofList_flatten {τ : Type} (L : List (List τ)) :
    Multiset.ofList L.flatten = (L.map (fun s => Multiset.ofList s)).sum := by
  induction L with
  | nil => rfl
  | cons a t ih =>
    simp only [List.flatten_cons, List.map_cons, List.sum_cons, ← ih,
      Multiset.coe_add]

/-- One merge subscription with the counter at the number of sources, fed
an interleaving of completing sources, forwards everything and delivers
one final `completed`, leaving the shared counter at zero and the
subscription disposed. -/
theorem merge_all_complete {τ : Type} (xss : List (List τ))
    (trace : List (Ev τ)) (h : Interleave (mergeSources xss) trace)
    (hpos : 0 < xss.length) (hw : xss.length < szW) :
    mergeRunFrom ⟨xss.length, false⟩ trace =
      ((evVals trace).map Ev.next ++ [Ev.completed], ⟨0, true⟩) := by
  have hwf := mergeSources_wf xss
  have hlen : (mergeSources xss).length < szW := by
    simpa [mergeSources] using hw
  have hmain := mergeRunFrom_interleave h hwf hlen
  rw [liveCount_mergeSources] at hmain
  simpa [if_neg hpos.ne'] using hmain

/-- An interleaving of completing sources carries no error events. -/
theorem interleave_trace_no_errors {τ : Type} {xss : List (List τ)}
    {trace : List (Ev τ)} (h : Interleave (mergeSources xss) trace) :
    ∀ e ∈ trace, isErrorEv e = false := by
  intro e he
  have hmem : e ∈ (mergeSources xss).flatten :=
    ((interleave_perm h).mem_iff).mp he
  exact mergeSources_flatten_no_errors xss e hmem

/-- An interleaving of completing sources carries exactly one `completed`
per source. -/
theorem interleave_trace_count {τ : Type} {xss : List (List τ)}
    {trace : List (Ev τ)} (h : Interleave (mergeSources xss) trace) :
    countCompleted trace = xss.length := by
  have hp := (interleave_perm h).countP_eq (fun e => isCompletedEv e)
  have h2 := countCompleted_mergeSources_flatten xss
  rw [countCompleted] at h2 ⊢
  rw [hp]
  exact h2

/-- Claim C5: for one subscription to `Merge(s1, s2, …)` — (1) on any
interleaving of the completing sources, the downstream sequence is every
`next` in arrival order followed by one `completed`, and the multiset of
downstream values is the union of the sources' value multisets; (2) with
no source error, downstream receives no `completed` while fewer sources
than subscribed have completed; (3) as soon as a source errors, the error
is forwarded at once and all source subscriptions are disposed (the
remaining deliveries are cut off). -/
theorem merge_spec {τ : Type} (xss : List (List τ))
    (hpos : 0 < xss.length) (hw : xss.length < szW) :
    (∀ trace : List (Ev τ), Interleave (mergeSources xss) trace →
      (mergeRunFrom ⟨xss.length, false⟩ trace).1 =
        (evVals trace).map Ev.next ++ [Ev.completed] ∧
      Multiset.ofList (evVals trace) =
        (xss.map (fun xs => Multiset.ofList xs)).sum) ∧
    (∀ trace : List (Ev τ), (∀ e ∈ trace, isErrorEv e = false) →
      countCompleted trace < xss.length →
      Ev.completed ∉ (mergeRunFrom ⟨xss.length, false⟩ trace).1) ∧
    (∀ (vs : List τ) (er : Nat) (suffix : List (Ev τ)),
      mergeRunFrom ⟨xss.length, false⟩
          (vs.map Ev.next ++ Ev.error er :: suffix) =
        (vs.map Ev.next ++ [Ev.error er], ⟨xss.length, true⟩)) := by
  refine ⟨?_, ?_, ?_⟩
  · intro trace htr
    have hall := merge_all_complete xss trace htr hpos hw
    refine ⟨by rw [hall], ?_⟩
    have hperm : (evVals trace).Perm (evVals ((mergeSources xss).flatten)) :=
      (interleave_perm htr).filterMap _
    rw [evVals_sources_flatten] at hperm
    exact (Multiset.coe_eq_coe.mpr hperm).trans (multiset_ofList_flatten xss)
  · intro trace hne hc
    rw [mergeRunFrom_live trace xss.length hne hc hw]
    intro hmem
    rcases List.mem_map.mp hmem with ⟨v, _, hv⟩
    exact Ev.noConfusion hv
  · intro vs er suffix
    have hsplit := mergeRunFrom_append (vs.map Ev.next)
      (Ev.error er :: suffix) ⟨xss.length, false⟩
    have hfst : mergeRunFrom (⟨xss.length, false⟩ : MergeState)
        (vs.map Ev.next) = (vs.map Ev.next, ⟨xss.length, false⟩) := by
      have := mergeRunFrom_live (vs.map Ev.next) xss.length
        (by intro e he; rcases List.mem_map.mp he with ⟨v, _, rfl⟩; rfl)
        (by rw [countCompleted_map_next]; exact hpos) hw
      rw [countCompleted_map_next, evVals_map_next] at this
      simpa using this
    have herr : mergeRunFrom (⟨xss.length, false⟩ : MergeState)
        (Ev.error er :: suffix) = ([Ev.error er], ⟨xss.length, true⟩) := by
      have hd := mergeRunFrom_disposed xss.length suffix
      simp [mergeRunFrom, mergeStep, hd]
    rw [hsplit, hfst]
    simp only [herr]

/-- Witness for the C5 theorem at `Merge(from([1,3,5]), from([2,4]))`
(scenario S6): the interleaving `1,2,3,4,(s2 done),5,(s1 done)` for
part (1); the partial trace `[next 1, completed]` for part (2); a first
source erroring with `9` after one value, cutting off a pending
`next 2`, for part (3). -/
theorem merge_spec_witness :
    ((mergeRunFrom (⟨2, false⟩ : MergeState)
        [Ev.next 1, Ev.next 2, Ev.next 3, Ev.next 4, Ev.completed,
         Ev.next 5, Ev.completed]).1 =
      (evVals [Ev.next 1, Ev.next 2, Ev.next 3, Ev.next 4, Ev.completed,
         Ev.next 5, Ev.completed]).map Ev.next ++ [Ev.completed] ∧
     Multiset.ofList (evVals [Ev.next 1, Ev.next 2, Ev.next 3, Ev.next 4,
         Ev.completed, Ev.next 5, Ev.completed]) =
      (([[1, 3, 5], [2, 4]] : List (List Nat)).map
        (fun xs => Multiset.ofList xs)).sum) ∧
    Ev.completed ∉
      (mergeRunFrom (⟨2, false⟩ : MergeState) [Ev.next 1, Ev.completed]).1 ∧
    mergeRunFrom (⟨2, false⟩ : MergeState)
        (([1] : List Nat).map Ev.next ++ Ev.error 9 :: [Ev.next 2]) =
      (([1] : List Nat).map Ev.next ++ [Ev.error 9], ⟨2, true⟩) := by
  have h := merge_spec ([[1, 3, 5], [2, 4]] : List (List Nat))
    (by decide) (by norm_num [szW])
  refine ⟨h.1 _ ?_, h.2.1 _ (by decide) (by decide), h.2.2 [1] 9 [Ev.next 2]⟩
  refine Interleave.cons _ ⟨0, by decide⟩ _ _ _ rfl ?_
  refine Interleave.cons _ ⟨1, by decide⟩ _ _ _ rfl ?_
  refine Interleave.cons _ ⟨0, by decide⟩ _ _ _ rfl ?_
  refine Interleave.cons _ ⟨1, by decide⟩ _ _ _ rfl ?_
  refine Interleave.cons _ ⟨1, by decide⟩ _ _ _ rfl ?_
  refine Interleave.cons _ ⟨0, by decide⟩ _ _ _ rfl ?_
  refine Interleave.cons _ ⟨0, by decide⟩ _ _ _ rfl ?_
  exact Interleave.nil _ (by decide)

/-- Claim C10: the `pendingComplete` counter is allocated once per call
to `Merge` and shared by every subscription to the returned observable.
A first subscription fed an interleaving of completing sources drives the
counter to zero and receives `completed`; a second, later subscription —
with its own fresh `ComposableDisposable` but the same counter — fed an
interleaving of completing sources still receives every `next` value but
never `completed`: the first decrement wraps the `size_t` counter to
`2^64 - 1`, which subsequent completions cannot bring back to zero. -/
theorem merge_shared_counter {τ : Type} (xss1 xss2 : List (List τ))
    (trace1 trace2 : List (Ev τ))
    (h1 : Interleave (mergeSources xss1) trace1)
    (hpos : 0 < xss1.length) (hw1 : xss1.length < szW)
    (h2 : Interleave (mergeSources xss2) trace2)
    (hw2 : xss2.length < szW) :
    (mergeRunFrom ⟨xss1.length, false⟩ trace1).1 =
      (evVals trace1).map Ev.next ++ [Ev.completed] ∧
    (mergeRunFrom ⟨xss1.length, false⟩ trace1).2.pending = 0 ∧
    (mergeRunFrom ⟨(mergeRunFrom ⟨xss1.length, false⟩ trace1).2.pending,
        false⟩ trace2).1 = (evVals trace2).map Ev.next ∧
    Ev.completed ∉
      (mergeRunFrom ⟨(mergeRunFrom ⟨xss1.length, false⟩ trace1).2.pending,
          false⟩ trace2).1 := by
  have hall := merge_all_complete xss1 trace1 h1 hpos hw1
  have hpend : (mergeRunFrom ⟨xss1.length, false⟩ trace1).2.pending = 0 := by
    rw [hall]
  have hne := interleave_trace_no_errors h2
  have hcnt := interleave_trace_count h2
  have hzero : mergeRunFrom (⟨0, false⟩ : MergeState) trace2 =
      ((evVals trace2).map Ev.next,
       ⟨(szW - (0 + countCompleted trace2)) % szW, false⟩) := by
    have hww := mergeRunFrom_wrapped trace2 0 hne
      (by rw [hcnt]; simpa using hw2)
    rw [show (szW - 0) % szW = 0 by simp] at hww
    exact hww
  refine ⟨by rw [hall], hpend, ?_, ?_⟩
  · rw [hpend, hzero]
  · rw [hpend, hzero]
    intro hmem
    rcases List.mem_map.mp hmem with ⟨v, _, hv⟩
    exact Ev.noConfusion hv

/-- Witness for the C10 theorem: `Merge` over the single source
`from([1])`; the first subscription sees `[next 1, completed]`, and a
second subscription over the re-delivering source `from([7])` sees its
value but no completion. -/
theorem merge_shared_counter_witness :
    (mergeRunFrom (⟨1, false⟩ : MergeState) [Ev.next 1, Ev.completed]).1 =
      (evVals [Ev.next 1, Ev.completed]).map Ev.next ++ [Ev.completed] ∧
    (mergeRunFrom (⟨1, false⟩ : MergeState)
        [Ev.next 1, Ev.completed]).2.pending = 0 ∧
    (mergeRunFrom ⟨(mergeRunFrom (⟨1, false⟩ : MergeState)
        [Ev.next 1, Ev.completed]).2.pending, false⟩
        [Ev.next 7, Ev.completed]).1 =
      (evVals [Ev.next 7, Ev.completed]).map Ev.next ∧
    Ev.completed ∉
      (mergeRunFrom ⟨(mergeRunFrom (⟨1, false⟩ : MergeState)
          [Ev.next 1, Ev.completed]).2.pending, false⟩
          [Ev.next 7, Ev.completed]).1 := by
  have hI1 : Interleave (mergeSources ([[1]] : List (List Nat)))
      [Ev.next 1, Ev.completed] := by
    refine Interleave.cons _ ⟨0, by decide⟩ _ _ _ rfl ?_
    refine Interleave.cons _ ⟨0, by decide⟩ _ _ _ rfl ?_
    exact Interleave.nil _ (by decide)
  have hI2 : Interleave (mergeSources ([[7]] : List (List Nat)))
      [Ev.next 7, Ev.completed] := by
    refine Interleave.cons _ ⟨0, by decide⟩ _ _ _ rfl ?_
    refine Interleave.cons _ ⟨0, by decide⟩ _ _ _ rfl ?_
    exact Interleave.nil _ (by decide)
  exact merge_shared_counter [[1]] [[7]] [Ev.next 1, Ev.completed]
    [Ev.next 7, Ev.completed] hI1 (by decide) (by norm_num [szW]) hI2
    (by norm_num [szW])
